import Mathlib

/-!
Verification of the NetworKit clustering-coefficient engine
(src/cpp/properties/ClusteringCoefficient.cpp).

The graph collaborator itself is not among the verified sources; the spec
(sections 3 and 6) declares it an external dependency, so it is modelled here
from the spec: nodes are dense integer ids below an upper bound z, some ids
may be non-existent (deleted), adjacency lists may contain self-loops and
parallel entries, degree is the length of the adjacency list, and iteration
primitives skip non-existent ids.

Floating-point doubles are modelled by the rationals; the single place where
IEEE semantics produce a not-a-number value (avgLocal dividing 0.0 by a zero
count) is modelled by an Option result, none standing for the NaN outcome.

The randomized estimators consume an explicit stream of draw values
(s : Nat -> Nat, one value per call into the random source) and an explicit
fuel bound, since their retry loops have no intrinsic termination measure;
a result of none means the computation did not finish within the given fuel,
and a statement that the result is none for every fuel is the embedding of
non-termination.
-/

namespace NetworKit

/-- Modelled from the spec: the external graph collaborator (spec sections 3
and 6). An id below z may be non-existent; adjacency is an adjacency-list
table indexed by node id, ids at or beyond the table length having empty
adjacency. Undirected edges are stored in the adjacency lists of both
endpoints; self-loops and parallel entries may occur. -/
structure Graph where
  z : ℕ
  exL : List Bool
  adjL : List (List ℕ)

/-- Modelled from the spec: node-existence test (hasNode). -/
def Graph.nodeExists (G : Graph) (v : ℕ) : Bool := G.exL.getD v false

/-- Modelled from the spec: adjacency list of a node, the sequence that
forEdgesOf and forNeighborsOf iterate over. -/
def Graph.adj (G : Graph) (v : ℕ) : List ℕ := G.adjL.getD v []

/-- Modelled from the spec: degree is the number of incident edge stubs,
self-loops and parallel edges included. -/
def Graph.degree (G : Graph) (v : ℕ) : ℕ := (G.adj v).length

/-- Modelled from the spec: hasEdge tests membership of w in the adjacency
list of u. -/
def Graph.hasEdge (G : Graph) (u w : ℕ) : Bool := (G.adj u).contains w

/-- Modelled from the spec: the existing nodes in increasing id order, the
sequence visited by forNodes and its parallel variants. -/
def nodesList (G : Graph) : List ℕ :=
  (List.range G.z).filter (fun v => G.nodeExists v)

/-- The neighbor set of u built by exactLocal: every neighbor other than u
itself, inserted into an unordered set (modelled by dedup). -/
def uNeighbors (G : Graph) (u : ℕ) : List ℕ :=
  ((G.adj u).filter (fun v => v != u)).dedup

/-- The triangle counter of exactLocal at node u: for every edge (u,v) and
every edge (v,w) incident to v, count w when it is in the neighbor set. -/
def triCounter (G : Graph) (u : ℕ) : ℕ :=
  ((G.adj u).map (fun v =>
    (G.adj v).countP (fun w => (uNeighbors G u).contains w))).sum

/-- The coefficient exactLocal stores at an existing node u: zero when the
degree is below two, otherwise the triangle counter divided by d * (d - 1). -/
def exactLocalEntry (G : Graph) (u : ℕ) : ℚ :=
  if G.degree u < 2 then 0
  else (triCounter G u : ℚ) / ((G.degree u * (G.degree u - 1) : ℕ) : ℚ)

/-- The per-node coefficient array returned by exactLocal: length is the
upper node id bound, entries of non-existent ids stay at the default zero. -/
def exactLocal (G : Graph) : List ℚ :=
  (List.range G.z).map (fun u => if G.nodeExists u then exactLocalEntry G u else 0)

/-- avgLocal: sum the exactLocal entries over the existing nodes of degree at
least two and divide by their number. A zero count makes the double division
0.0 / 0 evaluate to an IEEE not-a-number, modelled as none. -/
def avgLocal (G : Graph) : Option ℚ :=
  let coefficients := exactLocal G
  let sel := (nodesList G).filter (fun u => decide (2 ≤ G.degree u))
  let sum := (sel.map (fun u => coefficients.getD u 0)).sum
  let size := sel.length
  if size = 0 then none else some (sum / (size : ℚ))

/-- The per-node triangle counter of exactGlobal: the same double edge
traversal as exactLocal but testing adjacency with hasEdge directly, and only
run for nodes of degree above one. -/
def trianglesCnt (G : Graph) (u : ℕ) : ℕ :=
  if 1 < G.degree u then
    ((G.adj u).map (fun v => (G.adj v).countP (fun w => G.hasEdge u w))).sum
  else 0

/-- exactGlobal evaluated with an explicit node iteration order, modelling
the schedule of the parallel reductions: the sum of the per-node triangle
counters over the existing nodes divided by the sum of degree * (degree - 1)
over the existing nodes. -/
def exactGlobalOn (G : Graph) (order : List ℕ) : ℚ :=
  let ex := order.filter (fun v => G.nodeExists v)
  let tri := (ex.map (fun u => (trianglesCnt G u : ℚ))).sum
  let den := (ex.map (fun u => ((G.degree u * (G.degree u - 1) : ℕ) : ℚ))).sum
  tri / den

/-- exactGlobal with the default increasing-id schedule. -/
def exactGlobal (G : Graph) : ℚ := exactGlobalOn G (List.range G.z)

/-- The triple mass degree(v) * (degree(v) - 1) of a node. -/
def massOf (G : Graph) (v : ℕ) : ℕ := G.degree v * (G.degree v - 1)

/-- The weight accumulation loop of approxGlobal restricted to ids below n:
returns the running sum together with the array filled so far. Non-existent
ids are skipped by forNodes, so their entries keep the default zero. -/
def weightAux (G : Graph) : ℕ → ℕ × List ℕ
  | 0 => (0, [])
  | n + 1 =>
    let p := weightAux G n
    if G.nodeExists n then (p.1 + massOf G n, p.2 ++ [p.1 + massOf G n])
    else (p.1, p.2 ++ [0])

/-- The total triple mass psum accumulated by approxGlobal. -/
def psumOf (G : Graph) : ℕ := (weightAux G G.z).1

/-- The weight array built by approxGlobal. -/
def weightList (G : Graph) : List ℕ := (weightAux G G.z).2

/-- The binary-search loop of approxGlobal, with an explicit fuel argument
bounding the number of iterations; fuel high - low always suffices. -/
def bsearchGo (w : List ℕ) (r : ℕ) : ℕ → ℕ → ℕ → ℕ
  | 0, low, _ => low
  | fuel + 1, low, high =>
    if low < high then
      let middle := (low + high) / 2
      if w.getD middle 0 < r then bsearchGo w r fuel (middle + 1) high
      else if r < w.getD middle 0 then bsearchGo w r fuel low middle
      else middle
    else low

/-- The binary search of approxGlobal over the whole array: low starts at 0
and high at the upper node id bound, the length of the weight array. -/
def bsearch (w : List ℕ) (r : ℕ) : ℕ := bsearchGo w r w.length 0 w.length

/-- Modelled from the spec: Aux Random integer(psum - 1) draws uniformly from
the closed range up to psum - 1, where psum - 1 wraps around like the 64-bit
unsigned count type of the source; a stream value n is reduced into the
range. -/
def drawR (psum : ℕ) (n : ℕ) : ℕ :=
  n % ((psum + (2 ^ 64 - 1)) % 2 ^ 64 + 1)

/-- Modelled from the spec: randomNode picks an existing node, the stream
value selecting the position in the existing-node list. -/
def randNode (G : Graph) (n : ℕ) : ℕ :=
  (nodesList G).getD (n % (nodesList G).length) 0

/-- Modelled from the spec: randomNeighbor picks an entry of the adjacency
list, the stream value selecting the position. -/
def randNbr (G : Graph) (v : ℕ) (n : ℕ) : ℕ :=
  (G.adj v).getD (n % G.degree v) 0

/-- The redraw loop shared by approxAvgLocal and approxGlobal: redraw w while
it collides with u. Returns the chosen w and the next stream position, or
none when the fuel runs out. -/
def distinctLoop (G : Graph) (v u : ℕ) (s : ℕ → ℕ) : ℕ → ℕ → Option (ℕ × ℕ)
  | 0, _ => none
  | fuel + 1, pos =>
    let w := randNbr G v (s pos)
    if u = w then distinctLoop G v u s fuel (pos + 1) else some (w, pos + 1)

/-- The trial loop of approxAvgLocal: k counts completed trials, hits counts
closed samples; a drawn node of degree below two is discarded without
consuming a trial. -/
def approxAvgLocalLoop (G : Graph) (trials : ℕ) (s : ℕ → ℕ) :
    ℕ → ℕ → ℕ → ℕ → Option ℕ
  | 0, _, _, _ => none
  | fuel + 1, k, hits, pos =>
    if trials ≤ k then some hits
    else
      let v := randNode G (s pos)
      if G.degree v < 2 then approxAvgLocalLoop G trials s fuel k hits (pos + 1)
      else
        let u := randNbr G v (s (pos + 1))
        match distinctLoop G v u s fuel (pos + 2) with
        | none => none
        | some (w, pos2) =>
          approxAvgLocalLoop G trials s fuel (k + 1)
            (if G.hasEdge u w then hits + 1 else hits) pos2

/-- approxAvgLocal: run the trial loop from a fresh state and divide the hit
count by the trial count. -/
def approxAvgLocal (G : Graph) (trials : ℕ) (s : ℕ → ℕ) (fuel : ℕ) : Option ℚ :=
  (approxAvgLocalLoop G trials s fuel 0 0 0).map
    (fun hits => (hits : ℚ) / (trials : ℚ))

/-- The trial loop of approxGlobal: a weighted node is sampled through drawR
and the binary search, low-degree samples are discarded without consuming a
trial, and the distinct-neighbor redraw loop is the one of approxAvgLocal. -/
def approxGlobalLoop (G : Graph) (trials : ℕ) (s : ℕ → ℕ) (psum : ℕ)
    (weight : List ℕ) : ℕ → ℕ → ℕ → ℕ → Option ℕ
  | 0, _, _, _ => none
  | fuel + 1, k, hits, pos =>
    if trials ≤ k then some hits
    else
      let r := drawR psum (s pos)
      let v := bsearch weight r
      if G.degree v < 2 then
        approxGlobalLoop G trials s psum weight fuel k hits (pos + 1)
      else
        let u := randNbr G v (s (pos + 1))
        match distinctLoop G v u s fuel (pos + 2) with
        | none => none
        | some (w, pos2) =>
          approxGlobalLoop G trials s psum weight fuel (k + 1)
            (if G.hasEdge u w then hits + 1 else hits) pos2

/-- approxGlobal: build the weight array and total mass, run the trial loop,
and divide the hit count by the trial count. -/
def approxGlobal (G : Graph) (trials : ℕ) (s : ℕ → ℕ) (fuel : ℕ) : Option ℚ :=
  (approxGlobalLoop G trials s (psumOf G) (weightList G) fuel 0 0 0).map
    (fun hits => (hits : ℚ) / (trials : ℚ))

/-- Spec-side notion: the number of triangles incident to u, one per
unordered pair of neighbors of u joined by an edge. -/
def trianglesAt (G : Graph) (u : ℕ) : ℕ :=
  (((G.adj u).toFinset ×ˢ (G.adj u).toFinset).filter
    (fun p => p.1 < p.2 ∧ p.2 ∈ G.adj p.1)).card

/-- Spec-side notion: the existing nodes as a finite set. -/
def exNodes (G : Graph) : Finset ℕ :=
  (Finset.range G.z).filter (fun u => G.nodeExists u = true)

/-- Spec-side notion: the transitivity ratio, the sum of the per-node
triangle counters over all nodes divided by the sum of the triple masses. -/
def exactGlobalSpec (G : Graph) : ℚ :=
  (∑ u ∈ exNodes G, (trianglesCnt G u : ℚ)) /
  (∑ u ∈ exNodes G, ((G.degree u * (G.degree u - 1) : ℕ) : ℚ))

/-- Spec-side notion: the existing nodes of degree at least two. -/
def degTwoNodes (G : Graph) : Finset ℕ :=
  (Finset.range G.z).filter (fun u => G.nodeExists u = true ∧ 2 ≤ G.degree u)

/-- Spec-side notion: the arithmetic mean of the exactLocal entries over the
existing nodes of degree at least two. -/
def avgLocalMean (G : Graph) : ℚ :=
  (∑ u ∈ degTwoNodes G, (exactLocal G).getD u 0) / ((degTwoNodes G).card : ℚ)

/-- Spec-side notion: the cumulative triple mass over the existing nodes of
id at most i. -/
def cumMass (G : Graph) (i : ℕ) : ℕ :=
  ∑ v ∈ (Finset.range (i + 1)).filter (fun v => G.nodeExists v = true), massOf G v

/-- A triangle on three nodes, the running example graph. -/
def triangleG : Graph := ⟨3, [true, true, true], [[1, 2], [0, 2], [0, 1]]⟩

/-- A triangle in which the edge between nodes 1 and 2 is doubled. -/
def parG : Graph := ⟨3, [true, true, true], [[1, 2], [0, 2, 2], [0, 1, 1]]⟩

/-- A path on nodes 0, 1, 2 together with a deleted id 3. -/
def gapG : Graph := ⟨4, [true, true, true, false], [[1], [0, 2], [1], []]⟩

/-- A single edge: both endpoints have degree one, so the triple mass is 0. -/
def zeroMassG : Graph := ⟨2, [true, true], [[1], [0]]⟩

/-- Two nodes joined by a doubled edge: both have degree two, but every
neighbor draw of either node returns the same partner. -/
def twinG : Graph := ⟨2, [true, true], [[1, 1], [0, 0]]⟩

/-- An edge from 0 to 1 together with a self-loop at node 0. -/
def selfG : Graph := ⟨2, [true, true], [[0, 1], [0]]⟩

/-! Helper lemmas. -/

lemma getD_append_self (l : List ℕ) (x d : ℕ) : (l ++ [x]).getD l.length d = x := by
  simp [List.getD_eq_getElem?_getD, List.getElem?_append_right]

lemma getD_append_lt (l l' : List ℕ) (i d : ℕ) (h : i < l.length) :
    (l ++ l').getD i d = l.getD i d := by
  rw [List.getD_eq_getElem?_getD, List.getD_eq_getElem?_getD, List.getElem?_append_left h]

lemma range_map_getD (f : ℕ → ℚ) (n i : ℕ) (h : i < n) :
    ((List.range n).map f).getD i 0 = f i := by
  simp [List.getD_eq_getElem?_getD, List.getElem?_range h]

lemma range_map_getD_ge (f : ℕ → ℚ) (n i : ℕ) (h : n ≤ i) :
    ((List.range n).map f).getD i 0 = 0 := by
  apply List.getD_eq_default
  simpa using h

lemma weightAux_length (G : Graph) (n : ℕ) : (weightAux G n).2.length = n := by
  induction n with
  | zero => rfl
  | succ n ih => by_cases h : G.nodeExists n <;> simp [weightAux, h, ih]

lemma weightAux_fst (G : Graph) (n : ℕ) :
    (weightAux G n).1 =
      ∑ v ∈ Finset.range n, (if G.nodeExists v = true then massOf G v else 0) := by
  induction n with
  | zero => rfl
  | succ n ih =>
    by_cases h : G.nodeExists n <;> simp [weightAux, h, ih, Finset.sum_range_succ]

lemma weightAux_fst_mono (G : Graph) (m n : ℕ) (h : m ≤ n) :
    (weightAux G m).1 ≤ (weightAux G n).1 := by
  rw [weightAux_fst, weightAux_fst]
  exact Finset.sum_le_sum_of_subset (Finset.range_subset.mpr h)

lemma weightAux_succ_fst (G : Graph) (n : ℕ) :
    (weightAux G (n + 1)).1 =
      if G.nodeExists n then (weightAux G n).1 + massOf G n else (weightAux G n).1 := by
  by_cases h : G.nodeExists n <;> simp [weightAux, h]

lemma weightAux_succ_snd (G : Graph) (n : ℕ) :
    (weightAux G (n + 1)).2 =
      (weightAux G n).2 ++
        [if G.nodeExists n then (weightAux G n).1 + massOf G n else 0] := by
  by_cases h : G.nodeExists n <;> simp [weightAux, h]

lemma weightAux_getD (G : Graph) (n i : ℕ) (h : i < n) :
    (weightAux G n).2.getD i 0 =
      if G.nodeExists i = true then (weightAux G (i + 1)).1 else 0 := by
  induction n with
  | zero => omega
  | succ n ih =>
    rw [weightAux_succ_snd]
    rcases Nat.lt_succ_iff_lt_or_eq.mp h with h' | h'
    · have hlen : i < (weightAux G n).2.length := by rw [weightAux_length]; exact h'
      rw [getD_append_lt _ _ _ _ hlen]
      exact ih h'
    · subst h'
      have hself := getD_append_self (weightAux G i).2
        (if G.nodeExists i then (weightAux G i).1 + massOf G i else 0) 0
      rw [weightAux_length] at hself
      rw [hself, weightAux_succ_fst]
      by_cases hex : G.nodeExists i <;> simp [hex]

lemma weightList_getD (G : Graph) (i : ℕ) (h : i < G.z) :
    (weightList G).getD i 0 =
      if G.nodeExists i = true then (weightAux G (i + 1)).1 else 0 :=
  weightAux_getD G G.z i h

/-- Claim C3, counterexample: in the graph gapG the coefficient loop skips
the deleted id 3, whose weight entry stays 0 although the cumulative mass up
to id 3 is 2, so the array is not monotone over the id range and its final
entry differs from the total mass. -/
theorem weight_array_gap_violation :
    ¬ ((weightList gapG).getD 2 0 ≤ (weightList gapG).getD 3 0) ∧
    (weightList gapG).getD 3 0 ≠ psumOf gapG := by decide

/-- Claim C3 (amended): in a graph in which every id below the upper node id
bound exists, the weight array of approxGlobal holds at index i the
cumulative triple mass over the ids up to i, is monotonically non-decreasing
over the whole id range, and its final entry is the total mass. -/
theorem weight_array_invariants (G : Graph)
    (hall : ∀ v, v < G.z → G.nodeExists v = true) :
    (∀ i, i < G.z → (weightList G).getD i 0 = cumMass G i) ∧
    (∀ i j, i ≤ j → j < G.z → (weightList G).getD i 0 ≤ (weightList G).getD j 0) ∧
    (0 < G.z → (weightList G).getD (G.z - 1) 0 = psumOf G) := by
  have key : ∀ i, i < G.z → (weightList G).getD i 0 = (weightAux G (i + 1)).1 := by
    intro i hi
    rw [weightList_getD G i hi, if_pos (hall i hi)]
  have cum : ∀ i, (weightAux G (i + 1)).1 = cumMass G i := by
    intro i
    rw [weightAux_fst, cumMass, Finset.sum_filter]
  refine ⟨fun i hi => by rw [key i hi, cum i], fun i j hij hj => ?_, fun hz => ?_⟩
  · rw [key i (lt_of_le_of_lt hij hj), key j hj]
    exact weightAux_fst_mono G _ _ (by omega)
  · rw [key _ (by omega)]
    have hz' : G.z - 1 + 1 = G.z := by omega
    rw [hz']
    rfl

/-- Witness for the amended claim C3, on the triangle graph. -/
theorem weight_array_invariants_check :
    (weightList triangleG).getD 0 0 = cumMass triangleG 0 ∧
    (weightList triangleG).getD 0 0 ≤ (weightList triangleG).getD 2 0 ∧
    (weightList triangleG).getD 2 0 = psumOf triangleG := by
  obtain ⟨h1, h2, h3⟩ := weight_array_invariants triangleG (by decide)
  exact ⟨h1 0 (by decide), h2 0 2 (by decide) (by decide), h3 (by decide)⟩

lemma bsearchGo_spec (w : List ℕ) (r : ℕ)
    (hmono : ∀ j, j < w.length → ∀ i, i ≤ j → w.getD i 0 ≤ w.getD j 0) :
    ∀ fuel low high, high - low ≤ fuel → low ≤ high → high ≤ w.length →
    (∀ j, j < low → w.getD j 0 < r) →
    (∀ j, high ≤ j → j < w.length → r ≤ w.getD j 0) →
    low ≤ bsearchGo w r fuel low high ∧ bsearchGo w r fuel low high ≤ high ∧
    (bsearchGo w r fuel low high < w.length →
      r ≤ w.getD (bsearchGo w r fuel low high) 0) ∧
    ((∀ j, j < bsearchGo w r fuel low high → w.getD j 0 < r) ∨
     (bsearchGo w r fuel low high < high ∧
      w.getD (bsearchGo w r fuel low high) 0 = r)) := by
  intro fuel
  induction fuel with
  | zero =>
    intro low high hf hlh hhz hlow hhigh
    have he : low = high := by omega
    subst he
    exact ⟨le_refl _, le_refl _, fun h => hhigh low (le_refl _) h, Or.inl hlow⟩
  | succ n ih =>
    intro low high hf hlh hhz hlow hhigh
    by_cases hlt : low < high
    · have hmlo : low ≤ (low + high) / 2 := by omega
      have hmhi : (low + high) / 2 < high := by omega
      simp only [bsearchGo, if_pos hlt]
      by_cases h1 : w.getD ((low + high) / 2) 0 < r
      · rw [if_pos h1]
        have hlow' : ∀ j, j < (low + high) / 2 + 1 → w.getD j 0 < r := by
          intro j hj
          rcases Nat.lt_or_ge j low with hjl | hjl
          · exact hlow j hjl
          · exact lt_of_le_of_lt
              (hmono ((low + high) / 2) (lt_of_lt_of_le hmhi hhz) j (by omega)) h1
        obtain ⟨g1, g2, g3, g4⟩ :=
          ih ((low + high) / 2 + 1) high (by omega) (by omega) hhz hlow' hhigh
        exact ⟨by omega, g2, g3, g4⟩
      · rw [if_neg h1]
        by_cases h2 : r < w.getD ((low + high) / 2) 0
        · rw [if_pos h2]
          have hhigh' : ∀ j, (low + high) / 2 ≤ j → j < w.length → r ≤ w.getD j 0 := by
            intro j hj hj2
            exact le_trans (le_of_lt h2) (hmono j hj2 ((low + high) / 2) hj)
          obtain ⟨g1, g2, g3, g4⟩ :=
            ih low ((low + high) / 2) (by omega) (by omega)
              (le_trans (le_of_lt hmhi) hhz) hlow hhigh'
          refine ⟨g1, by omega, g3, ?_⟩
          rcases g4 with g4 | g4
          · exact Or.inl g4
          · exact Or.inr ⟨by omega, g4.2⟩
        · rw [if_neg h2]
          have he : w.getD ((low + high) / 2) 0 = r := by omega
          exact ⟨hmlo, le_of_lt hmhi,
            fun _ => le_of_eq he.symm, Or.inr ⟨hmhi, he⟩⟩
    · simp only [bsearchGo, if_neg hlt]
      have he : low = high := by omega
      subst he
      exact ⟨le_refl _, le_refl _, fun h => hhigh low (le_refl _) h, Or.inl hlow⟩

/-- Claim C4: on a monotonically non-decreasing weight array, for a target r
below the final cumulative value, the binary search of approxGlobal returns
an index inside the id range whose stored value is at least r, and that index
is either the smallest index with stored value at least r or, in the tie
case, an index whose stored value equals r exactly. -/
theorem bsearch_weighted_sampling (w : List ℕ) (r : ℕ)
    (hmono : ∀ j, j < w.length → ∀ i, i ≤ j → w.getD i 0 ≤ w.getD j 0)
    (hz : 0 < w.length) (hr : r < w.getD (w.length - 1) 0) :
    bsearch w r < w.length ∧ r ≤ w.getD (bsearch w r) 0 ∧
    ((∀ j, j < bsearch w r → w.getD j 0 < r) ∨ w.getD (bsearch w r) 0 = r) := by
  obtain ⟨h1, h2, h3, h4⟩ :=
    bsearchGo_spec w r hmono w.length 0 w.length (by omega) (by omega) (le_refl _)
      (by omega) (by intro j hj hj2; omega)
  have hlt : bsearch w r < w.length := by
    rcases h4 with h4 | h4
    · by_contra hge
      have hb : w.length - 1 < bsearch w r := by omega
      have := h4 (w.length - 1) hb
      omega
    · exact h4.1
  refine ⟨hlt, h3 hlt, ?_⟩
  rcases h4 with h4 | h4
  · exact Or.inl h4
  · exact Or.inr h4.2

/-- Witness for claim C4 on the array built from a path graph. -/
theorem bsearch_weighted_sampling_check :
    bsearch [2, 2, 4] 1 < [2, 2, 4].length ∧
    1 ≤ [2, 2, 4].getD (bsearch [2, 2, 4] 1) 0 ∧
    ((∀ j, j < bsearch [2, 2, 4] 1 → [2, 2, 4].getD j 0 < 1) ∨
     [2, 2, 4].getD (bsearch [2, 2, 4] 1) 0 = 1) :=
  bsearch_weighted_sampling [2, 2, 4] 1 (by decide) (by decide) (by decide)

lemma list_sum_ex (G : Graph) (f : ℕ → ℚ) :
    ((nodesList G).map f).sum = ∑ u ∈ exNodes G, f u := by
  have hnd : (nodesList G).Nodup := (List.nodup_range G.z).filter _
  rw [← List.sum_toFinset f hnd]
  congr 1
  ext a
  simp [nodesList, exNodes, List.mem_filter, Finset.mem_filter]

/-- Claim C2: with any iteration order of the node ids (any schedule of the
parallel reductions), exactGlobal returns the sum over all existing nodes of
the per-node triangle counter (taken for nodes of degree above one) divided
by the sum over all existing nodes of degree times degree minus one; in
particular the default schedule returns this same spec-level ratio, so two
calls agree. -/
theorem exactGlobal_transitivity (G : Graph) (order : List ℕ)
    (h : List.Perm order (List.range G.z)) :
    exactGlobalOn G order = exactGlobalSpec G ∧ exactGlobal G = exactGlobalSpec G := by
  have key : ∀ o, List.Perm o (List.range G.z) → exactGlobalOn G o = exactGlobalSpec G := by
    intro o ho
    have hperm : List.Perm (o.filter (fun v => G.nodeExists v)) (nodesList G) :=
      ho.filter _
    simp only [exactGlobalOn, exactGlobalSpec]
    rw [(hperm.map (fun u => (trianglesCnt G u : ℚ))).sum_eq,
        (hperm.map (fun u => ((G.degree u * (G.degree u - 1) : ℕ) : ℚ))).sum_eq,
        list_sum_ex, list_sum_ex]
  exact ⟨key order h, key _ (List.Perm.refl _)⟩

/-- Witness for claim C2: on the triangle graph a reordered schedule and the
default schedule both return the spec ratio. -/
theorem exactGlobal_transitivity_check :
    exactGlobalOn triangleG [2, 0, 1] = exactGlobalSpec triangleG ∧
    exactGlobal triangleG = exactGlobalSpec triangleG :=
  exactGlobal_transitivity triangleG [2, 0, 1] (by decide)

lemma sel_toFinset (G : Graph) :
    ((nodesList G).filter (fun u => decide (2 ≤ G.degree u))).toFinset = degTwoNodes G := by
  ext a
  simp only [List.mem_toFinset, List.mem_filter, nodesList, degTwoNodes,
    Finset.mem_filter, Finset.mem_range, List.mem_range, decide_eq_true_eq]
  tauto

lemma degTwoNodes_mem (G : Graph) (u : ℕ) :
    u ∈ degTwoNodes G ↔ (u < G.z ∧ G.nodeExists u = true ∧ 2 ≤ G.degree u) := by
  simp [degTwoNodes, Finset.mem_filter, Finset.mem_range]

/-- Claim C6: when some existing node has degree at least two, avgLocal is
the arithmetic mean of the exactLocal entries over exactly those nodes; when
no node has degree at least two the division is the IEEE indeterminate
0.0 / 0, a not-a-number result (modelled as none) and never the value 0.0. -/
theorem avgLocal_mean_or_nan (G : Graph) :
    ((∃ u, u < G.z ∧ G.nodeExists u = true ∧ 2 ≤ G.degree u) →
      avgLocal G = some (avgLocalMean G)) ∧
    ((¬ ∃ u, u < G.z ∧ G.nodeExists u = true ∧ 2 ≤ G.degree u) →
      avgLocal G = none) := by
  set sel := (nodesList G).filter (fun u => decide (2 ≤ G.degree u)) with hsel
  have hnd : sel.Nodup := ((List.nodup_range G.z).filter _).filter _
  have hcard : sel.length = (degTwoNodes G).card := by
    rw [← sel_toFinset G, List.toFinset_card_of_nodup hnd]
  have hsum : (sel.map (fun u => (exactLocal G).getD u 0)).sum =
      ∑ u ∈ degTwoNodes G, (exactLocal G).getD u 0 := by
    rw [← List.sum_toFinset _ hnd, sel_toFinset G]
  constructor
  · rintro ⟨u, hu⟩
    have hpos : 0 < (degTwoNodes G).card :=
      Finset.card_pos.mpr ⟨u, (degTwoNodes_mem G u).mpr hu⟩
    have hne : ¬ sel.length = 0 := by rw [hcard]; omega
    simp only [avgLocal]
    rw [← hsel, if_neg hne, hsum, hcard]
    rfl
  · intro hno
    have hz' : sel.length = 0 := by
      rw [hcard, Finset.card_eq_zero, Finset.eq_empty_iff_forall_not_mem]
      intro u hu
      exact hno ⟨u, (degTwoNodes_mem G u).mp hu⟩
    simp only [avgLocal]
    rw [← hsel, if_pos hz']

/-- Witness for claim C6: the triangle graph averages over its three nodes,
while the single-edge graph, having no node of degree two, produces the NaN
outcome. -/
theorem avgLocal_mean_or_nan_check :
    avgLocal triangleG = some (avgLocalMean triangleG) ∧
    avgLocal zeroMassG = none :=
  ⟨(avgLocal_mean_or_nan triangleG).1 ⟨0, by decide⟩,
   (avgLocal_mean_or_nan zeroMassG).2 (by decide)⟩

/-- Claim C9: the neighbor set exactLocal builds for u never contains u
itself, so the membership test closing a triangle can never match a
self-loop, while a self-loop entry still counts into the degree, which
strictly exceeds the number of distinct proper neighbors and thereby
inflates the coefficient denominator. -/
theorem uNeighbors_excludes_self (G : Graph) (u : ℕ) :
    u ∉ uNeighbors G u ∧ (u ∈ G.adj u → (uNeighbors G u).length < G.degree u) := by
  constructor
  · intro hmem
    have h1 := List.mem_filter.mp (List.mem_dedup.mp hmem)
    simp at h1
  · intro hself
    have h1 : (uNeighbors G u).length ≤ ((G.adj u).filter (fun v => v != u)).length :=
      List.Sublist.length_le (List.dedup_sublist _)
    have h2 : ((G.adj u).filter (fun v => v != u)).length < (G.adj u).length :=
      List.length_filter_lt_length_iff_exists.mpr ⟨u, hself, by simp⟩
    exact lt_of_le_of_lt h1 h2

/-- Witness for claim C9 on the graph with a self-loop at node 0. -/
theorem uNeighbors_excludes_self_check :
    0 ∉ uNeighbors selfG 0 ∧ (uNeighbors selfG 0).length < selfG.degree 0 :=
  ⟨(uNeighbors_excludes_self selfG 0).1,
   (uNeighbors_excludes_self selfG 0).2 (by decide)⟩

lemma no_self_loops_of_table (G : Graph)
    (h : ∀ i, i < G.adjL.length → (G.adjL.getD i []).contains i = false) :
    ∀ v, v ∉ G.adj v := by
  intro v hv
  by_cases hlt : v < G.adjL.length
  · have h1 := h v hlt
    have h2 : (G.adjL.getD v []).contains v = true := List.elem_iff.mpr hv
    rw [h1] at h2
    cases h2
  · rw [Graph.adj, List.getD_eq_default _ _ (by omega)] at hv
    cases hv

lemma nodup_of_table (G : Graph) (h : ∀ l ∈ G.adjL, l.Nodup) :
    ∀ v, (G.adj v).Nodup := by
  intro v
  by_cases hlt : v < G.adjL.length
  · rw [Graph.adj, List.getD_eq_getElem _ _ hlt]
    exact h _ (List.getElem_mem hlt)
  · rw [Graph.adj, List.getD_eq_default _ _ (by omega)]
    exact List.nodup_nil

lemma sym_of_table (G : Graph)
    (hbound : ∀ l ∈ G.adjL, ∀ w ∈ l, w < G.adjL.length)
    (h : ∀ v, v < G.adjL.length → ∀ w, w < G.adjL.length →
      (G.adjL.getD v []).contains w = (G.adjL.getD w []).contains v) :
    ∀ v w, w ∈ G.adj v ↔ v ∈ G.adj w := by
  have hb : ∀ v w, w ∈ G.adj v → v < G.adjL.length ∧ w < G.adjL.length := by
    intro v w hw
    by_cases hlt : v < G.adjL.length
    · refine ⟨hlt, ?_⟩
      rw [Graph.adj, List.getD_eq_getElem _ _ hlt] at hw
      exact hbound _ (List.getElem_mem hlt) w hw
    · rw [Graph.adj, List.getD_eq_default _ _ (by omega)] at hw
      cases hw
  have key : ∀ v w, w ∈ G.adj v → v ∈ G.adj w := by
    intro v w hm
    obtain ⟨h1, h2⟩ := hb v w hm
    have hc : (G.adjL.getD v []).contains w = true := List.elem_iff.mpr hm
    rw [h v h1 w h2] at hc
    exact List.elem_iff.mp hc
  exact fun v w => ⟨key v w, key w v⟩

lemma exactLocal_getD (G : Graph) (i : ℕ) :
    (exactLocal G).getD i 0 =
      if i < G.z then (if G.nodeExists i then exactLocalEntry G i else 0) else 0 := by
  by_cases h : i < G.z
  · rw [if_pos h]
    exact range_map_getD _ _ _ h
  · rw [if_neg h]
    exact range_map_getD_ge _ _ _ (by omega)

lemma uNeighbors_eq_adj (G : Graph) (u : ℕ) (hloop : u ∉ G.adj u)
    (hnodup : (G.adj u).Nodup) : uNeighbors G u = G.adj u := by
  have hp : ∀ v ∈ G.adj u, (v != u) = true := by
    intro v hv
    simp only [bne_iff_ne, ne_eq]
    intro he
    subst he
    exact hloop hv
  unfold uNeighbors
  rw [List.filter_eq_self.mpr hp, List.dedup_eq_self.mpr hnodup]

lemma countP_nbr_le (G : Graph) (u v : ℕ) (hloop : ∀ x, x ∉ G.adj x)
    (hnodup : ∀ x, (G.adj x).Nodup) (hv : v ∈ G.adj u) :
    (G.adj v).countP (fun w => (uNeighbors G u).contains w) ≤ G.degree u - 1 := by
  rw [uNeighbors_eq_adj G u (hloop u) (hnodup u)]
  have hsub : (G.adj v).filter (fun w => (G.adj u).contains w) ⊆ (G.adj u).erase v := by
    intro w hw
    obtain ⟨hw1, hw2⟩ := List.mem_filter.mp hw
    have hwu : w ∈ G.adj u := List.elem_iff.mp hw2
    have hwv : w ≠ v := fun he => hloop v (he ▸ hw1)
    exact ((hnodup u).mem_erase_iff).mpr ⟨hwv, hwu⟩
  have hnd : ((G.adj v).filter (fun w => (G.adj u).contains w)).Nodup :=
    (hnodup v).filter _
  calc (G.adj v).countP (fun w => (G.adj u).contains w)
      = ((G.adj v).filter (fun w => (G.adj u).contains w)).length := by
        simp [List.countP_eq_length_filter]
    _ = ((G.adj v).filter (fun w => (G.adj u).contains w)).toFinset.card :=
        (List.toFinset_card_of_nodup hnd).symm
    _ ≤ ((G.adj u).erase v).toFinset.card := by
        apply Finset.card_le_card
        intro a ha
        rw [List.mem_toFinset] at *
        exact hsub ha
    _ ≤ ((G.adj u).erase v).length := List.toFinset_card_le _
    _ = G.degree u - 1 := by rw [List.length_erase_of_mem hv]; rfl

lemma triCounter_le (G : Graph) (u : ℕ) (hloop : ∀ x, x ∉ G.adj x)
    (hnodup : ∀ x, (G.adj x).Nodup) :
    triCounter G u ≤ G.degree u * (G.degree u - 1) := by
  unfold triCounter
  have hb : ∀ x ∈ (G.adj u).map
      (fun v => (G.adj v).countP (fun w => (uNeighbors G u).contains w)),
      x ≤ G.degree u - 1 := by
    intro x hx
    obtain ⟨v, hv, hvx⟩ := List.mem_map.mp hx
    rw [← hvx]
    exact countP_nbr_le G u v hloop hnodup hv
  calc ((G.adj u).map
      (fun v => (G.adj v).countP (fun w => (uNeighbors G u).contains w))).sum
      ≤ ((G.adj u).map
          (fun v => (G.adj v).countP (fun w => (uNeighbors G u).contains w))).length
            • (G.degree u - 1) :=
        List.sum_le_card_nsmul _ _ hb
    _ = G.degree u * (G.degree u - 1) := by
        rw [List.length_map, smul_eq_mul]
        rfl

/-- Claim C8, counterexample: in the graph parG, where the edge between the
two neighbors of node 0 is doubled, the exactLocal entry of node 0 is 2,
outside the unit interval. -/
theorem exactLocal_exceeds_one : ¬ ((exactLocal parG).getD 0 0 ≤ 1) := by
  have h : (exactLocal parG).getD 0 0 = ((4 : ℕ) : ℚ) / ((2 : ℕ) : ℚ) := rfl
  rw [h]
  norm_num

/-- Claim C8 (amended): the exactLocal entry of every node of degree below
two is 0 in every graph, and in every graph without self-loops and without
parallel edges every entry of the exactLocal array lies in the unit
interval. -/
theorem exactLocal_range (G : Graph) :
    (∀ i, G.degree i < 2 → (exactLocal G).getD i 0 = 0) ∧
    ((∀ v, v ∉ G.adj v) → (∀ v, (G.adj v).Nodup) →
      ∀ i, 0 ≤ (exactLocal G).getD i 0 ∧ (exactLocal G).getD i 0 ≤ 1) := by
  constructor
  · intro i hd
    rw [exactLocal_getD]
    by_cases h : i < G.z
    · rw [if_pos h]
      by_cases he : G.nodeExists i
      · rw [if_pos he]
        unfold exactLocalEntry
        rw [if_pos hd]
      · rw [if_neg he]
    · rw [if_neg h]
  · intro hloop hnodup i
    rw [exactLocal_getD]
    by_cases h : i < G.z
    · rw [if_pos h]
      by_cases he : G.nodeExists i
      · rw [if_pos he]
        unfold exactLocalEntry
        by_cases hd : G.degree i < 2
        · rw [if_pos hd]
          exact ⟨le_refl 0, zero_le_one⟩
        · rw [if_neg hd]
          have hpos : 0 < G.degree i * (G.degree i - 1) := by
            have : 2 ≤ G.degree i := by omega
            have h1 : 1 ≤ G.degree i - 1 := by omega
            calc 0 < 2 * 1 := by omega
              _ ≤ G.degree i * (G.degree i - 1) := Nat.mul_le_mul this h1
          constructor
          · exact div_nonneg (Nat.cast_nonneg _) (Nat.cast_nonneg _)
          · rw [div_le_one (by exact_mod_cast hpos)]
            exact_mod_cast triCounter_le G i hloop hnodup
      · rw [if_neg he]
        exact ⟨le_refl 0, zero_le_one⟩
    · rw [if_neg h]
      exact ⟨le_refl 0, zero_le_one⟩

/-- Witness for the amended claim C8, on the triangle graph and on a node of
degree one of the single-edge graph. -/
theorem exactLocal_range_check :
    (exactLocal zeroMassG).getD 0 0 = 0 ∧
    (0 ≤ (exactLocal triangleG).getD 0 0 ∧ (exactLocal triangleG).getD 0 0 ≤ 1) :=
  ⟨(exactLocal_range zeroMassG).1 0 (by decide),
   (exactLocal_range triangleG).2
     (no_self_loops_of_table triangleG (by decide))
     (nodup_of_table triangleG (by decide)) 0⟩

lemma triCounter_eq_card (G : Graph) (u : ℕ) (hloop : ∀ x, x ∉ G.adj x)
    (hnodup : ∀ x, (G.adj x).Nodup) :
    triCounter G u =
      (((G.adj u).toFinset ×ˢ (G.adj u).toFinset).filter
        (fun p => p.2 ∈ G.adj p.1)).card := by
  unfold triCounter
  rw [uNeighbors_eq_adj G u (hloop u) (hnodup u)]
  rw [← List.sum_toFinset _ (hnodup u), Finset.card_filter, Finset.sum_product]
  apply Finset.sum_congr rfl
  intro v hv
  rw [← Finset.card_filter]
  have hcount : (G.adj v).countP (fun w => (G.adj u).contains w) =
      ((G.adj v).filter (fun w => (G.adj u).contains w)).length := by
    simp [List.countP_eq_length_filter]
  rw [hcount, ← List.toFinset_card_of_nodup ((hnodup v).filter _)]
  congr 1
  ext a
  simp only [List.mem_toFinset, List.mem_filter, Finset.mem_filter]
  constructor
  · rintro ⟨h1, h2⟩
    exact ⟨List.elem_iff.mp h2, h1⟩
  · rintro ⟨h1, h2⟩
    exact ⟨h2, List.elem_iff.mpr h1⟩

lemma card_swap (G : Graph) (u : ℕ) (hloop : ∀ x, x ∉ G.adj x)
    (hsym : ∀ v w, w ∈ G.adj v ↔ v ∈ G.adj w) :
    (((G.adj u).toFinset ×ˢ (G.adj u).toFinset).filter
      (fun p => p.2 ∈ G.adj p.1)).card = 2 * trianglesAt G u := by
  set A := (G.adj u).toFinset with hA
  set S := (A ×ˢ A).filter (fun p => p.2 ∈ G.adj p.1) with hS
  have h1 : S.filter (fun p => p.1 < p.2) =
      (A ×ˢ A).filter (fun p => p.1 < p.2 ∧ p.2 ∈ G.adj p.1) := by
    ext p
    simp only [hS, Finset.mem_filter, Finset.mem_product]
    tauto
  have h2 : S.filter (fun p => ¬ p.1 < p.2) =
      (A ×ˢ A).filter (fun p => p.2 < p.1 ∧ p.2 ∈ G.adj p.1) := by
    ext p
    simp only [hS, Finset.mem_filter, Finset.mem_product, not_lt]
    constructor
    · rintro ⟨⟨hp, hm⟩, hle⟩
      have hne : p.2 ≠ p.1 := fun he => hloop p.1 (he ▸ hm)
      exact ⟨hp, by omega, hm⟩
    · rintro ⟨hp, hlt, hm⟩
      exact ⟨⟨hp, hm⟩, by omega⟩
  have h3 : ((A ×ˢ A).filter (fun p => p.2 < p.1 ∧ p.2 ∈ G.adj p.1)).card =
      ((A ×ˢ A).filter (fun p => p.1 < p.2 ∧ p.2 ∈ G.adj p.1)).card := by
    apply Finset.card_bij' (fun p _ => Prod.swap p) (fun p _ => Prod.swap p)
    · intro p hp
      simp only [Finset.mem_filter, Finset.mem_product] at hp ⊢
      obtain ⟨⟨ha, hb⟩, hlt, hm⟩ := hp
      exact ⟨⟨hb, ha⟩, hlt, (hsym p.1 p.2).mp hm⟩
    · intro p hp
      simp only [Finset.mem_filter, Finset.mem_product] at hp ⊢
      obtain ⟨⟨ha, hb⟩, hlt, hm⟩ := hp
      exact ⟨⟨hb, ha⟩, hlt, (hsym p.1 p.2).mp hm⟩
    · intro p hp
      exact Prod.swap_swap p
    · intro p hp
      exact Prod.swap_swap p
  have hsplit : (S.filter (fun p => p.1 < p.2)).card +
      (S.filter (fun p => ¬ p.1 < p.2)).card = S.card :=
    Finset.filter_card_add_filter_neg_card_eq_card _
  rw [← hsplit, h1, h2, h3]
  unfold trianglesAt
  rw [← hA]
  omega

/-- Claim C1: in a graph without self-loops and parallel edges (undirected
adjacency stored in both endpoint lists), at every existing node u of degree
at least two the triangle counter of exactLocal is exactly twice the number
of triangles incident to u and the stored entry is the counter divided by
degree times degree minus one, while every node of degree below two gets
entry 0. -/
theorem exactLocal_twice_triangles (G : Graph) (u : ℕ)
    (hloop : ∀ x, x ∉ G.adj x) (hnodup : ∀ x, (G.adj x).Nodup)
    (hsym : ∀ v w, w ∈ G.adj v ↔ v ∈ G.adj w)
    (huz : u < G.z) (hex : G.nodeExists u = true) :
    (2 ≤ G.degree u →
      triCounter G u = 2 * trianglesAt G u ∧
      (exactLocal G).getD u 0 =
        (triCounter G u : ℚ) / ((G.degree u * (G.degree u - 1) : ℕ) : ℚ)) ∧
    (G.degree u < 2 → (exactLocal G).getD u 0 = 0) := by
  constructor
  · intro hd
    refine ⟨?_, ?_⟩
    · rw [triCounter_eq_card G u hloop hnodup, card_swap G u hloop hsym]
    · rw [exactLocal_getD, if_pos huz, if_pos hex]
      unfold exactLocalEntry
      rw [if_neg (by omega)]
  · intro hd
    rw [exactLocal_getD, if_pos huz, if_pos hex]
    unfold exactLocalEntry
    rw [if_pos hd]

/-- Witness for claim C1 on the triangle graph: the counter at node 0 is
twice the single incident triangle. -/
theorem exactLocal_twice_triangles_check :
    2 ≤ triangleG.degree 0 ∧ triCounter triangleG 0 = 2 * trianglesAt triangleG 0 :=
  ⟨by decide,
   ((exactLocal_twice_triangles triangleG 0
      (no_self_loops_of_table triangleG (by decide))
      (nodup_of_table triangleG (by decide))
      (sym_of_table triangleG (by decide) (by decide))
      (by decide) (by decide)).1 (by decide)).1⟩

lemma approxAvgLocalLoop_le (G : Graph) (trials : ℕ) (s : ℕ → ℕ) :
    ∀ fuel k hits pos h, k ≤ trials → hits ≤ k →
      approxAvgLocalLoop G trials s fuel k hits pos = some h → h ≤ trials := by
  intro fuel
  induction fuel with
  | zero =>
    intro k hits pos h hk hh hsome
    cases hsome
  | succ n ih =>
    intro k hits pos h hk hh hsome
    simp only [approxAvgLocalLoop] at hsome
    by_cases ht : trials ≤ k
    · rw [if_pos ht] at hsome
      cases hsome
      omega
    · rw [if_neg ht] at hsome
      by_cases hd : G.degree (randNode G (s pos)) < 2
      · rw [if_pos hd] at hsome
        exact ih k hits (pos + 1) h hk hh hsome
      · rw [if_neg hd] at hsome
        cases hdl : distinctLoop G (randNode G (s pos))
            (randNbr G (randNode G (s pos)) (s (pos + 1))) s n (pos + 2) with
        | none =>
          rw [hdl] at hsome
          cases hsome
        | some wp =>
          obtain ⟨w, pos2⟩ := wp
          rw [hdl] at hsome
          refine ih (k + 1) _ pos2 h (by omega) ?_ hsome
          split_ifs <;> omega

lemma approxGlobalLoop_le (G : Graph) (trials : ℕ) (s : ℕ → ℕ) (psum : ℕ)
    (weight : List ℕ) :
    ∀ fuel k hits pos h, k ≤ trials → hits ≤ k →
      approxGlobalLoop G trials s psum weight fuel k hits pos = some h →
      h ≤ trials := by
  intro fuel
  induction fuel with
  | zero =>
    intro k hits pos h hk hh hsome
    cases hsome
  | succ n ih =>
    intro k hits pos h hk hh hsome
    simp only [approxGlobalLoop] at hsome
    by_cases ht : trials ≤ k
    · rw [if_pos ht] at hsome
      cases hsome
      omega
    · rw [if_neg ht] at hsome
      by_cases hd : G.degree (bsearch weight (drawR psum (s pos))) < 2
      · rw [if_pos hd] at hsome
        exact ih k hits (pos + 1) h hk hh hsome
      · rw [if_neg hd] at hsome
        cases hdl : distinctLoop G (bsearch weight (drawR psum (s pos)))
            (randNbr G (bsearch weight (drawR psum (s pos))) (s (pos + 1))) s n
            (pos + 2) with
        | none =>
          rw [hdl] at hsome
          cases hsome
        | some wp =>
          obtain ⟨w, pos2⟩ := wp
          rw [hdl] at hsome
          refine ih (k + 1) _ pos2 h (by omega) ?_ hsome
          split_ifs <;> omega

/-- Claim C10: whenever a positive trial count completes (the loop finishes
within its fuel), the value returned by approxAvgLocal, and likewise by
approxGlobal, lies in the unit interval: each of the counted trials adds at
most one hit and discarded draws consume no trial. -/
theorem approx_unit_interval (G : Graph) (trials : ℕ) (s : ℕ → ℕ) (fuel : ℕ)
    (ht : 0 < trials) :
    (∀ q, approxAvgLocal G trials s fuel = some q → 0 ≤ q ∧ q ≤ 1) ∧
    (∀ q, approxGlobal G trials s fuel = some q → 0 ≤ q ∧ q ≤ 1) := by
  have bounds : ∀ hits : ℕ, hits ≤ trials →
      0 ≤ (hits : ℚ) / (trials : ℚ) ∧ (hits : ℚ) / (trials : ℚ) ≤ 1 := by
    intro hits hle
    constructor
    · exact div_nonneg (Nat.cast_nonneg _) (Nat.cast_nonneg _)
    · rw [div_le_one (by exact_mod_cast ht)]
      exact_mod_cast hle
  constructor
  · intro q hq
    unfold approxAvgLocal at hq
    cases hl : approxAvgLocalLoop G trials s fuel 0 0 0 with
    | none =>
      rw [hl] at hq
      cases hq
    | some hits =>
      rw [hl] at hq
      cases hq
      exact bounds hits
        (approxAvgLocalLoop_le G trials s fuel 0 0 0 hits (by omega) (by omega) hl)
  · intro q hq
    unfold approxGlobal at hq
    cases hl : approxGlobalLoop G trials s (psumOf G) (weightList G) fuel 0 0 0 with
    | none =>
      rw [hl] at hq
      cases hq
    | some hits =>
      rw [hl] at hq
      cases hq
      exact bounds hits
        (approxGlobalLoop_le G trials s (psumOf G) (weightList G) fuel 0 0 0 hits
          (by omega) (by omega) hl)

/-- Witness for claim C10: a completed run on the triangle graph, with the
identity draw stream, finishes one trial with one hit and stays in the unit
interval. -/
theorem approx_unit_interval_check :
    approxAvgLocal triangleG 1 (fun n => n) 10 = some (((1 : ℕ) : ℚ) / ((1 : ℕ) : ℚ)) ∧
    (0 ≤ ((1 : ℕ) : ℚ) / ((1 : ℕ) : ℚ) ∧ ((1 : ℕ) : ℚ) / ((1 : ℕ) : ℚ) ≤ 1) :=
  ⟨rfl,
   (approx_unit_interval triangleG 1 (fun n => n) 10 (by omega)).1 _ rfl⟩

lemma bsearch_zeroMass_deg (r : ℕ) : zeroMassG.degree (bsearch [0, 0] r) < 2 := by
  match r with
  | 0 => decide
  | r + 1 =>
    have h : bsearch [0, 0] (r + 1) = 2 := by simp [bsearch, bsearchGo]
    rw [h]
    decide

/-- Claim C5: on a graph whose total triple mass is zero (a single edge, both
endpoints of degree one) approxGlobal does not fail explicitly: the unsigned
draw bound wraps around, every sampled node is discarded without consuming a
trial, and the trial loop never terminates, whatever the draw stream and
however much fuel it is given. -/
theorem approxGlobal_zero_mass_diverges :
    psumOf zeroMassG = 0 ∧
    ∀ s fuel, approxGlobal zeroMassG 1 s fuel = none := by
  refine ⟨rfl, fun s fuel => ?_⟩
  have key : ∀ fuel pos, approxGlobalLoop zeroMassG 1 s 0 [0, 0] fuel 0 0 pos = none := by
    intro f
    induction f with
    | zero => intro pos; rfl
    | succ n ih =>
      intro pos
      simp only [approxGlobalLoop]
      rw [if_neg (by omega : ¬ (1 : ℕ) ≤ 0),
        if_pos (bsearch_zeroMass_deg (drawR 0 (s pos)))]
      exact ih (pos + 1)
  unfold approxGlobal
  have h1 : psumOf zeroMassG = 0 := rfl
  have h2 : weightList zeroMassG = [0, 0] := rfl
  rw [h1, h2, key fuel 0]
  rfl

lemma randNbr_twin0 (n : ℕ) : randNbr twinG 0 n = 1 := by
  unfold randNbr
  have hd : twinG.degree 0 = 2 := rfl
  have ha : twinG.adj 0 = [1, 1] := rfl
  rw [hd, ha]
  rcases Nat.mod_two_eq_zero_or_one n with h | h <;> rw [h] <;> rfl

lemma randNbr_twin1 (n : ℕ) : randNbr twinG 1 n = 0 := by
  unfold randNbr
  have hd : twinG.degree 1 = 2 := rfl
  have ha : twinG.adj 1 = [0, 0] := rfl
  rw [hd, ha]
  rcases Nat.mod_two_eq_zero_or_one n with h | h <;> rw [h] <;> rfl

lemma distinctLoop_twin0 (s : ℕ → ℕ) :
    ∀ fuel pos, distinctLoop twinG 0 1 s fuel pos = none := by
  intro fuel
  induction fuel with
  | zero => intro pos; rfl
  | succ n ih =>
    intro pos
    simp only [distinctLoop, randNbr_twin0]
    rw [if_pos trivial]
    exact ih (pos + 1)

lemma distinctLoop_twin1 (s : ℕ → ℕ) :
    ∀ fuel pos, distinctLoop twinG 1 0 s fuel pos = none := by
  intro fuel
  induction fuel with
  | zero => intro pos; rfl
  | succ n ih =>
    intro pos
    simp only [distinctLoop, randNbr_twin1]
    rw [if_pos trivial]
    exact ih (pos + 1)

/-- Claim C7: the distinct-neighbor redraw loop of approxAvgLocal and of
approxGlobal has no bound: on a graph in which every neighbor draw of the
sampled node returns the same partner (a doubled edge), both estimators run
forever, whatever the draw stream and however much fuel is provided, instead
of failing after a bounded number of redraws. -/
theorem redraw_loop_unbounded :
    (∀ s fuel, approxAvgLocal twinG 1 s fuel = none) ∧
    (∀ s fuel, approxGlobal twinG 1 s fuel = none) := by
  constructor
  · intro s fuel
    have key : ∀ f pos, approxAvgLocalLoop twinG 1 s f 0 0 pos = none := by
      intro f
      induction f with
      | zero => intro pos; rfl
      | succ n ih =>
        intro pos
        simp only [approxAvgLocalLoop]
        rw [if_neg (by omega : ¬ (1 : ℕ) ≤ 0)]
        rcases Nat.mod_two_eq_zero_or_one (s pos) with h | h
        · have hv : randNode twinG (s pos) = 0 := by
            unfold randNode
            rw [show nodesList twinG = [0, 1] from rfl]
            rw [show ([0, 1] : List ℕ).length = 2 from rfl, h]
            rfl
          rw [hv, if_neg (by decide : ¬ twinG.degree 0 < 2), randNbr_twin0,
            distinctLoop_twin0 s n (pos + 2)]
        · have hv : randNode twinG (s pos) = 1 := by
            unfold randNode
            rw [show nodesList twinG = [0, 1] from rfl]
            rw [show ([0, 1] : List ℕ).length = 2 from rfl, h]
            rfl
          rw [hv, if_neg (by decide : ¬ twinG.degree 1 < 2), randNbr_twin1,
            distinctLoop_twin1 s n (pos + 2)]
    unfold approxAvgLocal
    rw [key fuel 0]
    rfl
  · intro s fuel
    have key : ∀ f pos, approxGlobalLoop twinG 1 s 4 [2, 4] f 0 0 pos = none := by
      intro f
      induction f with
      | zero => intro pos; rfl
      | succ n ih =>
        intro pos
        simp only [approxGlobalLoop]
        rw [if_neg (by omega : ¬ (1 : ℕ) ≤ 0)]
        have hmod : drawR 4 (s pos) = s pos % 4 := by
          unfold drawR
          norm_num
        have hr : drawR 4 (s pos) < 4 := by
          rw [hmod]
          exact Nat.mod_lt _ (by norm_num)
        set r := drawR 4 (s pos) with hrdef
        interval_cases r
        · rw [show bsearch [2, 4] 0 = 0 from rfl,
            if_neg (by decide : ¬ twinG.degree 0 < 2), randNbr_twin0,
            distinctLoop_twin0 s n (pos + 2)]
        · rw [show bsearch [2, 4] 1 = 0 from rfl,
            if_neg (by decide : ¬ twinG.degree 0 < 2), randNbr_twin0,
            distinctLoop_twin0 s n (pos + 2)]
        · rw [show bsearch [2, 4] 2 = 0 from rfl,
            if_neg (by decide : ¬ twinG.degree 0 < 2), randNbr_twin0,
            distinctLoop_twin0 s n (pos + 2)]
        · rw [show bsearch [2, 4] 3 = 1 from rfl,
            if_neg (by decide : ¬ twinG.degree 1 < 2), randNbr_twin1,
            distinctLoop_twin1 s n (pos + 2)]
    unfold approxGlobal
    have h1 : psumOf twinG = 4 := rfl
    have h2 : weightList twinG = [2, 4] := rfl
    rw [h1, h2, key fuel 0]
    rfl

end NetworKit
